import Mathlib

/-!
Verification of the AsyncGame repository (bucaar/AsyncGame).

Shallow embedding of the code in:
  * `src/streams_util.py` — line transport (`readline` / `writeline`);
  * `src/server.py`       — connection registry (`Connection.increment_attribute`,
                            `Server.handle_hello_connection` name validation,
                            `Server.close_connection`);
  * `src/game_manager.py` — session orchestrator (`GameManager.play_game`,
                            `GameManager.handle_connection_queues`,
                            `GameManager.get_player_outputs`).

Strings are modelled as `List Char` (Python's `str` over the code points that
occur on the wire); Python `bytes` and `str` are identified because the
sources only `encode`/`decode` UTF-8 and every claim is about the decoded
text.  Coroutines are modelled as pure functions: a blocking stream is a list
of the chunks successive `reader.read(100)` calls deliver (`[]` thereafter
models end-of-stream, where `read` returns an empty bytes object), and loops
whose termination depends on the transport take explicit fuel, `none` meaning
the loop never returns.
-/

namespace AsyncGame

/-- The carriage-return character of the `"\r\n"` delimiter. -/
def cr : Char := '\r'

/-- The line-feed character: the `"\n"` delimiter, and what `writeline` appends. -/
def lf : Char := '\n'

/-- Python `message.split("\r\n", 1)` when `"\r\n" in message`: splits at the
leftmost occurrence of the two-character delimiter.  `none` when the
delimiter does not occur (Python's membership test `"\r\n" in message`
failing). -/
def splitCRLF : List Char → Option (List Char × List Char)
  | c1 :: c2 :: rest =>
    if c1 = cr ∧ c2 = lf then some ([], rest)
    else (splitCRLF (c2 :: rest)).map (fun p => (c1 :: p.1, p.2))
  | _ => none

/-- Python `message.split("\n", 1)` when `"\n" in message`: splits at the
leftmost line feed; `none` when there is none. -/
def splitLF : List Char → Option (List Char × List Char)
  | c :: rest =>
    if c = lf then some ([], rest)
    else (splitLF rest).map (fun p => (c :: p.1, p.2))
  | [] => none

/-- The body of `for eol in ["\r\n", "\n"]: if eol in message: ...` in
`streams_util.readline`: the `"\r\n"` delimiter is looked for first, then
`"\n"`. -/
def findDelim (message : List Char) : Option (List Char × List Char) :=
  match splitCRLF message with
  | some r => some r
  | none => splitLF message

/-- Outcome of the buffer-draining `while buffer:` loop of
`streams_util.readline`: either a delimited `line` was returned (with the
deque as the loop left it), or the buffer ran out and the loop fell through
with the accumulated undelimited `message`. -/
inductive DrainResult
  | line (l : List Char) (buffer : List (List Char))
  | empty (message : List Char)
deriving DecidableEq, Repr

/-- The `while buffer:` loop of `streams_util.readline`: entries are popped
from the left and appended to `message`; after each pop the delimiters are
checked; any remainder after a found delimiter is pushed back on the left of
the deque when non-empty (`if extra: buffer.appendleft(extra)`). -/
def drainBuffer (message : List Char) : List (List Char) → DrainResult
  | [] => .empty message
  | b :: rest =>
    let message := message ++ b
    match findDelim message with
    | some (line, extra) => .line line (if extra = [] then rest else extra :: rest)
    | none => drainBuffer message rest

/-- The `while data := data + await reader.read(100):` loop of
`streams_util.readline`.  Each iteration takes the next chunk of the
transport (the empty chunk once the transport is exhausted), appends it to
`data`, exits returning `none` for the line when `data` is empty (the
function then falls through to `return None`), and otherwise looks for a
delimiter, appending any non-empty remainder to the (empty at this point)
buffer deque.  `fuel` bounds the iterations; the outer `none` means the loop
ran out of fuel, i.e. the code never returns. -/
def readLoop (fuel : Nat) (data : List Char) (chunks : List (List Char)) :
    Option (Option (List Char) × List (List Char) × List (List Char)) :=
  match fuel with
  | 0 => none
  | fuel + 1 =>
    let chunk := chunks.headD []
    let rest := chunks.tail
    let data := data ++ chunk
    if data = [] then some (none, [], rest)
    else
      match findDelim data with
      | some (line, extra) =>
        some (some line, (if extra = [] then [] else [extra]), rest)
      | none => readLoop fuel data rest

/-- `streams_util.readline` on a transport that ends cleanly (no
`ConnectionResetError`): drain the per-connection buffer first, then read
chunks.  The result is `some (line?, buffer', chunks')` where `line? = none`
models the `return None`-by-fall-through that signals end-of-stream, and the
outer `none` models non-termination (no amount of fuel makes the code
return). -/
def readline (fuel : Nat) (buffer chunks : List (List Char)) :
    Option (Option (List Char) × List (List Char) × List (List Char)) :=
  match drainBuffer [] buffer with
  | .line l buf => some (some l, buf, chunks)
  | .empty message => readLoop fuel message chunks

/-- The bytes `streams_util.writeline` hands to `writer.write`: the message,
with a `"\n"` appended when it does not already end with one. -/
def writeline (message : List Char) : List Char :=
  if message.getLast? = some lf then message else message ++ [lf]

/-- Driver that calls `readline` back-to-back until it signals end-of-stream,
collecting the returned lines — the reader side of the round-trip property.
Each `readline` call gets just enough fuel to consume the remaining chunks
once; `fuel` bounds the number of lines read. -/
def readAll (fuel : Nat) (buffer chunks : List (List Char)) :
    Option (List (List Char)) :=
  match fuel with
  | 0 => none
  | fuel + 1 =>
    match readline (chunks.length + 1) buffer chunks with
    | none => none
    | some (none, _, _) => some []
    | some (some l, buffer', chunks') => (readAll fuel buffer' chunks').map (l :: ·)

/-! ### Connection registry (`src/server.py`) -/

/-- Association-list update, the effect of Python `d[k] = v` on a `dict`
(overwrites the entry when the key is present, appends it otherwise). -/
def dictSet {α : Type} (d : List (String × α)) (k : String) (v : α) :
    List (String × α) :=
  match d with
  | [] => [(k, v)]
  | (k', v') :: rest => if k' = k then (k, v) :: rest else (k', v') :: dictSet rest k v

/-- `Connection.increment_attribute` (`src/server.py:23-27`): inserts `0` for
an absent key, then adds the literal `1` — the `amount` parameter is never
read by the body.  (`attrKey` is the source's `attribute` parameter, a Lean
keyword.) -/
def increment_attribute (attributes : List (String × Int)) (attrKey : String)
    (amount : Int) : List (String × Int) :=
  let _ := amount
  let attributes :=
    if (attributes.lookup attrKey).isNone then dictSet attributes attrKey 0
    else attributes
  dictSet attributes attrKey (((attributes.lookup attrKey).getD 0) + 1)

/-- A connection as `Server.close_connection` sees it: the object's identity
(Python compares `Connection` instances by identity for registry purposes),
its registered name, and its attribute counters. -/
structure Conn where
  id : Nat
  name : String
  attributes : List (String × Int)
deriving DecidableEq, Repr

/-- The slice of `Server` state that `close_connection` reads and writes,
plus the per-connection `writer.is_closing()` flags (`closing`). -/
structure ServerState where
  connections : List Nat
  names : List (String × Nat)
  old_attributes : List (String × List (String × Int))
  connection_queue : List Nat
  disconnection_queue : List Nat
  closing : List Nat
deriving DecidableEq, Repr

/-- The mutations `close_connection` performs after the optional quit-send
(`src/server.py:139-154`), as one record update: each statement of the source
writes a distinct field and reads only fields no earlier statement wrote, so
the sequence equals this simultaneous update.  Removal from `connections` and
`names` is guarded (`if connection in ...`, the source logs a warning
otherwise); the disconnect-event append is unconditional. -/
def closeBody (s : ServerState) (c : Conn) : ServerState :=
  { connections := if c.id ∈ s.connections then s.connections.erase c.id
                   else s.connections,
    names := if (s.names.lookup c.name).isSome then
               s.names.filter (fun p => p.1 ≠ c.name)
             else s.names,
    old_attributes := if c.attributes ≠ [] then
                        dictSet s.old_attributes c.name c.attributes
                      else s.old_attributes,
    connection_queue := s.connection_queue,
    disconnection_queue := s.disconnection_queue ++ [c.id],
    closing := s.closing.insert c.id }

/-- `Server.close_connection` (`src/server.py:134-154`) with the quit-send
modelled by `writeOk` (whether `streams_util.writeline` to that connection
succeeds).  When the connection is not yet closing, a `"quit"` line is sent;
a failed send makes `send_message` call `close_connection` again (the
recursion in the source), after which the outer call continues with the
state the inner call produced... except that the inner call, too, sees the
writer still open, so with a persistently failing transport the recursion
never bottoms out: `fuel` bounds it and `none` models that. -/
def close_connection (fuel : Nat) (writeOk : Nat → Bool) (s : ServerState)
    (c : Conn) : Option ServerState :=
  match fuel with
  | 0 => none
  | fuel + 1 =>
    match (if c.id ∈ s.closing then some s
           else if writeOk c.id then some s
           else close_connection fuel writeOk s c) with
    | none => none
    | some s1 => some (closeBody s1 c)

/-! ### Handshake name validation (`Server.handle_hello_connection`) -/

/-- The character class of the regex `[^a-zA-Z0-9]`, complemented: `true`
exactly on the ASCII letters and digits the pattern keeps. -/
def isAlnumAscii (c : Char) : Bool :=
  ('a' ≤ c ∧ c ≤ 'z') ∨ ('A' ≤ c ∧ c ≤ 'Z') ∨ ('0' ≤ c ∧ c ≤ '9')

/-- Worker for `re.sub("[^a-zA-Z0-9]+", "_", name)`: `inRun` records whether
the scanner is inside a run of non-alphanumeric characters (whose first
character already produced the single replacement underscore). -/
def normAux (inRun : Bool) : List Char → List Char
  | [] => []
  | c :: rest =>
    if isAlnumAscii c then c :: normAux false rest
    else if inRun then normAux true rest
    else '_' :: normAux true rest

/-- The characters Python's `str.strip()` removes at either end (the ASCII
whitespace set; the sources only ever see ASCII here). -/
def isPySpace (c : Char) : Bool :=
  c = ' ' ∨ c = '\t' ∨ c = '\n' ∨ c = '\r' ∨ c = Char.ofNat 11 ∨ c = Char.ofNat 12

/-- Python `name.strip()`. -/
def pyStrip (l : List Char) : List Char :=
  ((l.dropWhile isPySpace).reverse.dropWhile isPySpace).reverse

/-- The normalization `name = name.strip(); name = re.sub("[^a-zA-Z0-9]+", "_",
name)` of `Server.handle_hello_connection` (`src/server.py:84-85`). -/
def normalize_name (raw : List Char) : List Char :=
  normAux false (pyStrip raw)

/-- One round of the handshake loop: either a rejection (with the message the
server sends before re-prompting) or acceptance of the normalized name. -/
inductive HandshakeResult
  | rejected (message : String)
  | accepted (name : List Char)
deriving DecidableEq, Repr

/-- Whether a `HandshakeResult` is a rejection. -/
def HandshakeResult.isRejected : HandshakeResult → Bool
  | .rejected _ => true
  | .accepted _ => false

/-- The validation chain of `Server.handle_hello_connection`
(`src/server.py:84-101`): normalize, then reject on `name == "" or name ==
"_"`, `len(name) < 2`, `len(name) > 10`, or `self.name_exists(name)`, in that
order; otherwise the name is accepted.  `names` is the list of names held by
live connections (the keys of `self.names`). -/
def validate_name (names : List (List Char)) (raw : List Char) : HandshakeResult :=
  let name := normalize_name raw
  if name = [] ∨ name = ['_'] then
    .rejected "Sorry, you must have letters or numbers in your name"
  else if name.length < 2 then
    .rejected "Sorry, your name must be 2 or more letters"
  else if name.length > 10 then
    .rejected "Sorry, your name must be 10 or fewer letters"
  else if name ∈ names then
    .rejected "Sorry, that name is already being used"
  else
    .accepted name

/-! ### Session orchestrator (`src/game_manager.py`) -/

/-- The exceptions a game hook can raise out of `GameManager.play_game`'s
`try:` block: the two control-flow signals from `src/game.py`
(`GameOverError`, `PlayerDisconnectedError`) and any other, fatal, exception
(`fatal`). -/
inductive GameExc
  | gameOver
  | playerDisconnected
  | fatal
deriving DecidableEq, Repr

/-- What each hook of one round-loop iteration of `play_game` does: `none`
when the hook returns normally, `some e` when it raises `e`.  The fields
follow the iteration order `prepare_round`, `get_player_outputs` (the
fan-out, whose trailing `handle_connection_queues` is where
`PlayerDisconnectedError` surfaces), the `handle_player_output` loop, and
`update_game` (the usual `GameOverError` site). -/
structure RoundBehavior where
  prepare : Option GameExc
  fanout : Option GameExc
  handle : Option GameExc
  update : Option GameExc
deriving DecidableEq, Repr

/-- One iteration of the round loop: the first hook to raise determines the
iteration's outcome; `none` when the round completes normally. -/
def runRound (r : RoundBehavior) : Option GameExc :=
  match r.prepare with
  | some e => some e
  | none =>
    match r.fanout with
    | some e => some e
    | none =>
      match r.handle with
      | some e => some e
      | none => r.update

/-- The unbounded `while True:` round loop of `play_game`, given the
behaviour of the rounds the game would play: the exception that ends the
loop, or `none` when no listed round raises (the loop would run on past the
listed rounds — the session never ends by itself). -/
def runRounds : List RoundBehavior → Option GameExc
  | [] => none
  | r :: rest =>
    match runRound r with
    | some e => some e
    | none => runRounds rest

/-- Observable outcome of one `GameManager.play_game` call: how many times
`game.on_game_over` was awaited, and the exception (if any) that escaped
`play_game` into `game_loop`. -/
structure PlayGameResult where
  on_game_over_calls : Nat
  raised : Option GameExc
deriving DecidableEq, Repr

/-- `GameManager.play_game` (`src/game_manager.py:160-201`): the `try:` block
runs `setup_game` then the round loop; `except PlayerDisconnectedError` and
`except GameOverError` swallow those two signals, after which the code falls
through to `visualize_round` and `await self.game.on_game_over()`; any other
exception propagates immediately, skipping `on_game_over`.  `none` models a
session whose round loop never raises — `play_game` never returns. -/
def play_game (setup : Option GameExc) (rounds : List RoundBehavior) :
    Option PlayGameResult :=
  let exc :=
    match setup with
    | some e => some e
    | none => runRounds rounds
  match exc with
  | none => none
  | some .gameOver => some ⟨1, none⟩
  | some .playerDisconnected => some ⟨1, none⟩
  | some .fatal => some ⟨0, some .fatal⟩

/-- The errors that `get_player_outputs` and `handle_connection_queues` can
raise: the two `RuntimeError`s of `get_player_outputs`, the `IndexError` from
`responses[index] = result`, and `PlayerDisconnectedError`. -/
inductive GMError
  | noPlayerInputs
  | indexError
  | responseCountMismatch
  | playerDisconnected
deriving DecidableEq, Repr

/-- The orchestrator state `handle_connection_queues` touches: the two
registry event queues, the current cooldown, the session roster (connection
ids) and whether a game instance is bound (`self.game is not None`). -/
structure GMState where
  connection_queue : List Nat
  disconnection_queue : List Nat
  start_cooldown : Nat
  players : List Nat
  game_active : Bool
deriving DecidableEq, Repr

/-- The first `while` of `GameManager.handle_connection_queues`
(`src/game_manager.py:148-151`): each drained connect event resets the
cooldown to `cooldownVal` (the game's `start_cooldown()`). -/
def drainConnects (cooldownVal : Nat) : List Nat → Nat → Nat
  | [], cd => cd
  | _ :: rest, _ => drainConnects cooldownVal rest cooldownVal

/-- The second `while` of `handle_connection_queues`
(`src/game_manager.py:153-158`): each drained disconnect event resets the
cooldown, then raises `PlayerDisconnectedError` when a game is bound and the
connection is a session participant.  Returns the final cooldown, the queue
entries a raise left undrained, and whether the loop raised. -/
def drainDisconnects (cooldownVal : Nat) (gameActive : Bool) (players : List Nat) :
    List Nat → Nat → Nat × List Nat × Bool
  | [], cd => (cd, [], false)
  | c :: rest, _ =>
    if gameActive = true ∧ c ∈ players then (cooldownVal, rest, true)
    else drainDisconnects cooldownVal gameActive players rest cooldownVal

/-- `GameManager.handle_connection_queues` (`src/game_manager.py:148-158`):
drain both event queues, resetting the cooldown per event; the returned flag
records a `PlayerDisconnectedError` raise. -/
def handle_connection_queues (cooldownVal : Nat) (gm : GMState) : GMState × Bool :=
  let cd1 := drainConnects cooldownVal gm.connection_queue gm.start_cooldown
  let out := drainDisconnects cooldownVal gm.game_active gm.players
    gm.disconnection_queue cd1
  ({ gm with
      connection_queue := [],
      disconnection_queue := out.2.1,
      start_cooldown := out.1 }, out.2.2)

/-- Python truthiness of the `round_input` returned by
`game.get_player_input`: `if not round_input: continue` skips both `None` and
the empty string. -/
def promptTruthy : Option String → Bool
  | none => false
  | some s => s ≠ ""

/-- The prompt-collection loop of `GameManager.get_player_outputs`
(`src/game_manager.py:305-318`): the roster indices for which
`get_player_input` returned a truthy prompt, in roster order — these are
`response_indicies`, and one response task is created per entry. -/
def promptedIndices (n : Nat) (inputs : Nat → Option String) : List Nat :=
  (List.range n).filter (fun i => promptTruthy (inputs i))

/-- Python `responses[i] = v` on a list: `none` models the `IndexError` when
`i` is out of bounds. -/
def listSet {α : Type} : List α → Nat → α → Option (List α)
  | [], _, _ => none
  | _ :: rest, 0, v => some (v :: rest)
  | x :: rest, i + 1, v => (listSet rest i v).map (x :: ·)

/-- The `while response_tasks:` completion loop of `get_player_outputs`
(`src/game_manager.py:320-334`), flattened over the arbitrary order in which
`asyncio.wait(..., return_when=FIRST_COMPLETED)` hands tasks back: `arrival`
is the sequence of roster indices in completion order, `resp i` the result of
player `i`'s `get_response` task (`none` when the player disconnected).  Each
completion bumps `responded` and stores the result at `responses[index]` —
the roster index — raising `IndexError` when it is out of bounds. -/
def fanoutLoop (resp : Nat → Option String) :
    List Nat → List (Option String) → Nat →
    Except GMError (List (Option String) × Nat)
  | [], responses, responded => .ok (responses, responded)
  | i :: rest, responses, responded =>
    match listSet responses i (resp i) with
    | none => .error .indexError
    | some responses' => fanoutLoop resp rest responses' (responded + 1)

/-- `GameManager.get_player_outputs` (`src/game_manager.py:300-344`): collect
the prompted indices (raising when none), run the completion loop over a
`responses` list with one `None` slot per created task, check the
response-count invariant, run `handle_connection_queues` (whose
`PlayerDisconnectedError`, when the registry queues are not empty, propagates
out of this call), and return `list(zip(response_indicies, responses))`. -/
def get_player_outputs (cooldownVal : Nat) (gm : GMState) (n : Nat)
    (inputs : Nat → Option String) (resp : Nat → Option String)
    (arrival : List Nat) : Except GMError (List (Nat × Option String)) :=
  let idxs := promptedIndices n inputs
  if idxs = [] then .error .noPlayerInputs
  else
    match fanoutLoop resp arrival (idxs.map (fun _ => none)) 0 with
    | .error e => .error e
    | .ok (responses, responded) =>
      if responded ≠ idxs.length then .error .responseCountMismatch
      else if (handle_connection_queues cooldownVal gm).2 then
        .error .playerDisconnected
      else .ok (idxs.zip responses)

/-! ### Helper lemmas -/

lemma lookup_dictSet {α : Type} (d : List (String × α)) (k : String) (v : α) :
    (dictSet d k v).lookup k = some v := by
  induction d with
  | nil => simp [dictSet, List.lookup]
  | cons p rest ih =>
    by_cases h : p.1 = k
    · simp [dictSet, h, List.lookup]
    · have hne : (k == p.1) = false := by
        simp [BEq.beq]
        exact fun he => h he.symm
      simp [dictSet, h, List.lookup, hne, ih]

/-! ### C10 — `increment_attribute` always increments by exactly 1 -/

/-- C10: `Connection.increment_attribute(attribute, amount)` ignores `amount`
and always bumps the counter by exactly 1 — an absent attribute ends at 1
(`getD 0` of an absent lookup below), an existing counter at one more than
before. -/
theorem increment_attribute_adds_one (attributes : List (String × Int))
    (attrKey : String) (amount : Int) :
    increment_attribute attributes attrKey amount =
      increment_attribute attributes attrKey 1 ∧
    (increment_attribute attributes attrKey amount).lookup attrKey =
      some (((attributes.lookup attrKey).getD 0) + 1) := by
  refine ⟨rfl, ?_⟩
  unfold increment_attribute
  cases h : attributes.lookup attrKey with
  | none => simp [h, lookup_dictSet]
  | some v => simp [h, lookup_dictSet]

/-! ### C1 — `on_game_over` at session end -/

/-- C1 counterexample: a session whose first round's `update_game` raises a
fatal (non-`GameOverError`, non-`PlayerDisconnectedError`) exception ends
with `on_game_over` called 0 times, not once: the claim that `on_game_over`
runs exactly once even for "a fatal game error raised from a game hook" is
false of `play_game`. -/
theorem play_game_fatal_skips_on_game_over_cex :
    play_game none [⟨none, none, none, some GameExc.fatal⟩] =
      some { on_game_over_calls := 0, raised := some GameExc.fatal } ∧
    (0 : Nat) ≠ 1 := by
  constructor
  · rfl
  · decide

/-- C1 amended: whenever `play_game` returns, sessions ended by a
`GameOverError` or `PlayerDisconnectedError` (nothing escapes, `raised =
none`) ran `on_game_over` exactly once, while a fatal game error propagates
out of `play_game` with `on_game_over` never called. -/
theorem play_game_on_game_over (setup : Option GameExc)
    (rounds : List RoundBehavior) (r : PlayGameResult)
    (h : play_game setup rounds = some r) :
    (r.raised = none ∧ r.on_game_over_calls = 1) ∨
    (r.raised = some GameExc.fatal ∧ r.on_game_over_calls = 0) := by
  have key : ∀ exc : Option GameExc, (match exc with
      | none => (none : Option PlayGameResult)
      | some .gameOver => some ⟨1, none⟩
      | some .playerDisconnected => some ⟨1, none⟩
      | some .fatal => some ⟨0, some .fatal⟩) = some r →
      (r.raised = none ∧ r.on_game_over_calls = 1) ∨
      (r.raised = some GameExc.fatal ∧ r.on_game_over_calls = 0) := by
    intro exc hx
    match exc with
    | none => exact absurd hx (by simp)
    | some .gameOver => injection hx with hx; subst hx; simp
    | some .playerDisconnected => injection hx with hx; subst hx; simp
    | some .fatal => injection hx with hx; subst hx; simp
  exact key _ h

/-- Witness for `play_game_on_game_over`: the round loop of a concrete
session raising `GameOverError` from `update_game`. -/
theorem play_game_on_game_over_witness :
    (({ on_game_over_calls := 1, raised := none } : PlayGameResult).raised = none ∧
      ({ on_game_over_calls := 1, raised := none } : PlayGameResult).on_game_over_calls = 1) ∨
    (({ on_game_over_calls := 1, raised := none } : PlayGameResult).raised = some GameExc.fatal ∧
      ({ on_game_over_calls := 1, raised := none } : PlayGameResult).on_game_over_calls = 0) :=
  play_game_on_game_over none [⟨none, none, none, some GameExc.gameOver⟩] _ rfl

/-! ### C4 / C9 — `close_connection` and the disconnect-event queue -/

/-- Shared helper: a `close_connection` call whose quit-send branch does not
recurse (the writer is already closing, or the quit write succeeds) returns
after one pass and appends exactly one disconnect event for the connection,
leaving the connect-event queue untouched. -/
lemma close_connection_step (fuel : Nat) (writeOk : Nat → Bool) (s : ServerState)
    (c : Conn) (h : c.id ∈ s.closing ∨ writeOk c.id = true) :
    close_connection (fuel + 1) writeOk s c = some (closeBody s c) := by
  unfold close_connection
  rcases h with h | h
  · simp [h]
  · by_cases hm : c.id ∈ s.closing <;> simp [h, hm]

/-- The concrete connection of the C4 counterexample. -/
def cexConn : Conn := ⟨0, "alice", [("wins", 3)]⟩

/-- The concrete registry state of the C4 counterexample: `cexConn` is live
and registered, its transport has just failed so its writer is closing. -/
def cexServer : ServerState := ⟨[0], [("alice", 0)], [], [], [], [0]⟩

/-- C4 counterexample: both the keepalive prober (`ping_connection`) and a
failing application write (`send_message`) call `close_connection` on the
same connection; each call appends a disconnect event, so the queue holds the
connection twice — not "at most one disconnect event ever". -/
theorem close_connection_double_enqueue_cex :
    ((close_connection 1 (fun _ => false) cexServer cexConn).bind
        (fun s1 => close_connection 1 (fun _ => false) s1 cexConn)).map
      ServerState.disconnection_queue = some [0, 0] ∧
    ¬ ([0, 0].count 0 ≤ 1) := by decide

/-- C4 amended: each terminating `close_connection` call appends exactly one
disconnect event for the closed connection (the append is unconditional in
the source), so a connection whose keepalive failure coincides with an
application-level write failure is enqueued once per triggered close —
twice — rather than once ever. -/
theorem close_connection_enqueue_per_call (fuel : Nat) (writeOk : Nat → Bool)
    (s : ServerState) (c : Conn)
    (h : c.id ∈ s.closing ∨ writeOk c.id = true) :
    ∃ s', close_connection (fuel + 1) writeOk s c = some s' ∧
      s'.disconnection_queue = s.disconnection_queue ++ [c.id] := by
  exact ⟨closeBody s c, close_connection_step fuel writeOk s c h, rfl⟩

/-- Witness for `close_connection_enqueue_per_call`. -/
theorem close_connection_enqueue_per_call_witness :
    ∃ s', close_connection 1 (fun _ => true) ⟨[], [], [], [], [], []⟩
        ⟨1, "bob", []⟩ = some s' ∧
      s'.disconnection_queue = ([] : List Nat) ++ [1] :=
  close_connection_enqueue_per_call 0 (fun _ => true) ⟨[], [], [], [], [], []⟩
    ⟨1, "bob", []⟩ (Or.inr rfl)

/-- Shared helper: draining the disconnect queue resets the cooldown on every
event; when no drained event belongs to a live session participant the loop
does not raise and empties the queue. -/
lemma drainDisconnects_no_raise (cooldownVal : Nat) (gameActive : Bool)
    (players : List Nat) :
    ∀ (q : List Nat) (cd : Nat),
      (∀ d ∈ q, ¬(gameActive = true ∧ d ∈ players)) →
      drainDisconnects cooldownVal gameActive players q cd =
        ((if q = [] then cd else cooldownVal), [], false) := by
  intro q
  induction q with
  | nil => intro cd _; simp [drainDisconnects]
  | cons c rest ih =>
    intro cd hq
    have hc : ¬(gameActive = true ∧ c ∈ players) := hq c (by simp)
    have hrest := ih cooldownVal (fun d hd => hq d (by simp [hd]))
    simp [drainDisconnects, hc, hrest]

/-- C9: a `close_connection` call on a connection that never completed
registration (it appears in no queue; fuel hypotheses as in C4) still appends
it to the disconnect-event queue while the connect-event queue stays without
it, and draining any non-empty disconnect queue whose events are not session
participants resets the orchestrator's start cooldown without raising. -/
theorem close_unregistered_enqueued_and_resets (fuel : Nat)
    (writeOk : Nat → Bool) (s : ServerState) (c : Conn)
    (h : c.id ∈ s.closing ∨ writeOk c.id = true)
    (hq : c.id ∉ s.connection_queue) :
    (∃ s', close_connection (fuel + 1) writeOk s c = some s' ∧
       s'.disconnection_queue = s.disconnection_queue ++ [c.id] ∧
       c.id ∉ s'.connection_queue) ∧
    (∀ (cooldownVal : Nat) (gm : GMState), gm.disconnection_queue ≠ [] →
       (∀ d ∈ gm.disconnection_queue, ¬(gm.game_active = true ∧ d ∈ gm.players)) →
       (handle_connection_queues cooldownVal gm).1.start_cooldown = cooldownVal ∧
       (handle_connection_queues cooldownVal gm).2 = false) := by
  constructor
  · exact ⟨closeBody s c, close_connection_step fuel writeOk s c h, rfl, hq⟩
  · intro cooldownVal gm hne hns
    have hd := drainDisconnects_no_raise cooldownVal gm.game_active gm.players
      gm.disconnection_queue
      (drainConnects cooldownVal gm.connection_queue gm.start_cooldown) hns
    simp [handle_connection_queues, hd, hne]

/-- Witness for `close_unregistered_enqueued_and_resets`: a browser-probe
connection that was never registered. -/
theorem close_unregistered_enqueued_and_resets_witness :
    (∃ s', close_connection 1 (fun _ => true) ⟨[], [], [], [], [], []⟩
        ⟨7, "9.9.9.9:80", []⟩ = some s' ∧
       s'.disconnection_queue = ([] : List Nat) ++ [7] ∧
       7 ∉ s'.connection_queue) ∧
    (∀ (cooldownVal : Nat) (gm : GMState), gm.disconnection_queue ≠ [] →
       (∀ d ∈ gm.disconnection_queue, ¬(gm.game_active = true ∧ d ∈ gm.players)) →
       (handle_connection_queues cooldownVal gm).1.start_cooldown = cooldownVal ∧
       (handle_connection_queues cooldownVal gm).2 = false) :=
  close_unregistered_enqueued_and_resets 0 (fun _ => true)
    ⟨[], [], [], [], [], []⟩ ⟨7, "9.9.9.9:80", []⟩ (Or.inr rfl) (by simp)

/-! ### C7 / C8 — handshake name validation and normalization -/

/-- Every character a normalization pass emits is an ASCII letter/digit or
the replacement underscore. -/
lemma normAux_chars : ∀ (l : List Char) (inRun : Bool) (c : Char),
    c ∈ normAux inRun l → isAlnumAscii c = true ∨ c = '_' := by
  intro l
  induction l with
  | nil => intro inRun c hc; simp [normAux] at hc
  | cons a rest ih =>
    intro inRun c hc
    simp only [normAux] at hc
    by_cases ha : isAlnumAscii a = true
    · rw [if_pos ha] at hc
      rcases List.mem_cons.mp hc with hc | hc
      · exact Or.inl (hc ▸ ha)
      · exact ih false c hc
    · rw [if_neg ha] at hc
      cases inRun with
      | true => exact ih true c (by simpa using hc)
      | false =>
        simp only [Bool.false_eq_true, if_false] at hc
        rcases List.mem_cons.mp hc with hc | hc
        · exact Or.inr hc
        · exact ih true c hc

/-- The run-replacement pass is idempotent, jointly for both entry modes. -/
lemma normAux_idem : ∀ l : List Char,
    (∀ inRun : Bool, normAux false (normAux inRun l) = normAux inRun l) ∧
    normAux true (normAux true l) = normAux true l := by
  intro l
  induction l with
  | nil => exact ⟨fun _ => rfl, rfl⟩
  | cons a rest ih =>
    by_cases ha : isAlnumAscii a = true
    · constructor
      · intro inRun
        simp only [normAux, if_pos ha]
        rw [ih.1 false]
      · simp only [normAux, if_pos ha]
        rw [ih.1 false]
    · constructor
      · intro inRun
        cases inRun with
        | true =>
          simp only [normAux, if_neg ha]
          exact ih.1 true
        | false =>
          simp only [normAux, if_neg ha, Bool.false_eq_true, if_false]
          have hu : ¬ isAlnumAscii '_' = true := by decide
          simp only [normAux, if_neg hu, Bool.false_eq_true, if_false]
          rw [ih.2]
      · simp only [normAux, if_neg ha]
        exact ih.2

/-- A list made of letters, digits and underscores is untouched by
`dropWhile isPySpace`. -/
lemma dropWhile_pySpace_eq_self (l : List Char)
    (h : ∀ c ∈ l, isAlnumAscii c = true ∨ c = '_') :
    l.dropWhile isPySpace = l := by
  cases l with
  | nil => rfl
  | cons a rest =>
    have ha : isPySpace a = false := by
      rcases h a (by simp) with ha | ha
      · revert ha
        have : ∀ x : Char, isPySpace x = true → isAlnumAscii x = false := by
          intro x hx
          rcases (by simpa [isPySpace] using hx :
            x = ' ' ∨ x = '\t' ∨ x = '\n' ∨ x = '\r' ∨
              x = Char.ofNat 11 ∨ x = Char.ofNat 12) with h1 | h1 | h1 | h1 | h1 | h1 <;>
            (subst h1; decide)
        intro ha
        cases hx : isPySpace a with
        | false => rfl
        | true => rw [this a hx] at ha; exact absurd ha (by simp)
      · subst ha; decide
    simp [List.dropWhile, ha]

/-- Stripping is the identity on normalization output. -/
lemma pyStrip_normAux (l : List Char) (inRun : Bool) :
    pyStrip (normAux inRun l) = normAux inRun l := by
  have h1 : (normAux inRun l).dropWhile isPySpace = normAux inRun l :=
    dropWhile_pySpace_eq_self _ (fun c hc => normAux_chars l inRun c hc)
  have h2 : (normAux inRun l).reverse.dropWhile isPySpace = (normAux inRun l).reverse :=
    dropWhile_pySpace_eq_self _ (fun c hc =>
      normAux_chars l inRun c (by simpa using hc))
  simp [pyStrip, h1, h2]

/-- C8: the handshake normalization (strip, then replace every run of
non-alphanumeric characters with a single underscore) is idempotent: an
already-normalized name passes through unchanged. -/
theorem normalize_name_idempotent (raw : List Char) :
    normalize_name (normalize_name raw) = normalize_name raw := by
  unfold normalize_name
  rw [pyStrip_normAux]
  exact (normAux_idem (pyStrip raw)).1 false

/-- C7: `handle_hello_connection` rejects a submitted name exactly when the
normalized form is empty, shorter than 2 characters, longer than 10, or
already held by a live connection (the source's `name == "" or name == "_"`
guard is subsumed by the length-2 minimum, so the two condition sets agree);
in particular `"!!!"` is always rejected, and `"!a!"` normalizes to `"_a_"`
and is accepted whenever that name is free. -/
theorem validate_name_spec (names : List (List Char)) (raw : List Char) :
    ((validate_name names raw).isRejected = true ↔
      (normalize_name raw = [] ∨ (normalize_name raw).length < 2 ∨
        10 < (normalize_name raw).length ∨ normalize_name raw ∈ names)) ∧
    (validate_name names ['!', '!', '!']).isRejected = true ∧
    (['_', 'a', '_'] ∉ names →
      validate_name names ['!', 'a', '!'] = .accepted ['_', 'a', '_']) := by
  refine ⟨?_, ?_, ?_⟩
  · simp only [validate_name]
    split
    · next hc =>
      simp only [HandshakeResult.isRejected, true_iff]
      rcases hc with hc | hc
      · exact Or.inl hc
      · exact Or.inr (Or.inl (by rw [hc]; decide))
    · next hc =>
      split
      · next h2 =>
        simp only [HandshakeResult.isRejected, true_iff]
        exact Or.inr (Or.inl h2)
      · next h2 =>
        split
        · next h3 =>
          simp only [HandshakeResult.isRejected, true_iff]
          exact Or.inr (Or.inr (Or.inl h3))
        · next h3 =>
          split
          · next h4 =>
            simp only [HandshakeResult.isRejected, true_iff]
            exact Or.inr (Or.inr (Or.inr h4))
          · next h4 =>
            simp only [HandshakeResult.isRejected, Bool.false_eq_true, false_iff]
            push_neg at hc
            intro hd
            rcases hd with hd | hd | hd | hd
            · exact hc.1 hd
            · exact h2 hd
            · exact h3 hd
            · exact h4 hd
  · have hn : normalize_name ['!', '!', '!'] = ['_'] := by decide
    unfold validate_name
    rw [hn]
    simp [HandshakeResult.isRejected]
  · intro hfree
    have hn : normalize_name ['!', 'a', '!'] = ['_', 'a', '_'] := by decide
    unfold validate_name
    rw [hn]
    have h1 : ¬(['_', 'a', '_'] = ([] : List Char) ∨ ['_', 'a', '_'] = ['_']) := by decide
    rw [if_neg h1, if_neg (by decide), if_neg (by decide), if_neg hfree]

/-! ### C5 / C6 — the response fan-out of `get_player_outputs` -/

lemma listSet_eq_set {α : Type} :
    ∀ (l : List α) (i : Nat) (v : α), i < l.length →
      listSet l i v = some (l.set i v) := by
  intro l
  induction l with
  | nil => intro i v h; simp at h
  | cons x rest ih =>
    intro i v h
    cases i with
    | zero => rfl
    | succ i =>
      have : i < rest.length := by simpa using h
      simp [listSet, ih i v this]

lemma listSet_eq_none {α : Type} :
    ∀ (l : List α) (i : Nat) (v : α), l.length ≤ i →
      listSet l i v = none := by
  intro l
  induction l with
  | nil => intro i v _; rfl
  | cons x rest ih =>
    intro i v h
    cases i with
    | zero => simp at h
    | succ i =>
      have : rest.length ≤ i := by simpa using h
      simp [listSet, ih i v this]

/-- The completion loop with every arriving roster index in bounds: it
succeeds, counts one response per arrival, and leaves slot `j` holding
`resp j` exactly when `j` arrived. -/
lemma fanoutLoop_ok (resp : Nat → Option String) :
    ∀ (arrival : List Nat) (responses : List (Option String)) (responded : Nat),
      (∀ i ∈ arrival, i < responses.length) →
      ∃ final, fanoutLoop resp arrival responses responded =
          .ok (final, responded + arrival.length) ∧
        final.length = responses.length ∧
        (∀ j : Nat, final[j]? =
          if j ∈ arrival then (if j < responses.length then some (resp j) else none)
          else responses[j]?) := by
  intro arrival
  induction arrival with
  | nil =>
    intro responses responded _
    refine ⟨responses, by simp [fanoutLoop], rfl, ?_⟩
    intro j; simp
  | cons i rest ih =>
    intro responses responded hin
    have hi : i < responses.length := hin i (by simp)
    have hset := listSet_eq_set responses i (resp i) hi
    have hrest : ∀ a ∈ rest, a < (responses.set i (resp i)).length := by
      intro a ha
      rw [List.length_set]
      exact hin a (by simp [ha])
    obtain ⟨final, hrun, hlen, hval⟩ :=
      ih (responses.set i (resp i)) (responded + 1) hrest
    refine ⟨final, ?_, ?_, ?_⟩
    · simp only [fanoutLoop, hset]
      rw [hrun]
      have : responded + 1 + rest.length = responded + (rest.length + 1) := by omega
      simp [this]
    · rw [hlen, List.length_set]
    · intro j
      have hj := hval j
      by_cases hjr : j ∈ rest
      · rw [if_pos hjr] at hj
        rw [if_pos (by simp [hjr])]
        rwa [List.length_set] at hj
      · rw [if_neg hjr] at hj
        by_cases hje : j = i
        · subst hje
          rw [if_pos (by simp)]
          rw [hj, List.getElem?_set]
          simp [hi]
        · rw [if_neg (by simp [hje, hjr])]
          rw [hj, List.getElem?_set]
          simp [Ne.symm hje]

/-- C5: when every one of the `n` participants yields a (truthy) prompt and
every response task completes (in an arbitrary order `arrival`, a permutation
of the roster indices) with no registry events pending, `get_player_outputs`
collects exactly `n` responses and returns the pairs `(index, response)` in
ascending roster-index order — the order in which `play_game` then calls
`handle_player_output` once per participant. -/
theorem get_player_outputs_all_prompted (cooldownVal : Nat) (gm : GMState)
    (n : Nat) (inputs : Nat → Option String) (resp : Nat → Option String)
    (arrival : List Nat)
    (hn : 0 < n)
    (hin : ∀ i, i < n → promptTruthy (inputs i) = true)
    (harr : arrival.Perm (List.range n))
    (hdq : gm.disconnection_queue = []) :
    get_player_outputs cooldownVal gm n inputs resp arrival =
      .ok ((List.range n).map (fun i => (i, resp i))) := by
  have hidx : promptedIndices n inputs = List.range n := by
    unfold promptedIndices
    rw [List.filter_eq_self]
    intro a ha
    exact hin a (List.mem_range.mp ha)
  have hmem : ∀ j : Nat, j ∈ arrival ↔ j < n := by
    intro j
    rw [harr.mem_iff, List.mem_range]
  have hlen0 : ((List.range n).map
      (fun _ => (none : Option String))).length = n := by simp
  obtain ⟨final, hrun, hlen, hval⟩ := fanoutLoop_ok resp arrival
    ((List.range n).map (fun _ => (none : Option String))) 0
    (by intro i hi; rw [hlen0]; exact (hmem i).mp hi)
  have hfinal : final = (List.range n).map resp := by
    apply List.ext_getElem?
    intro j
    have hj := hval j
    rw [hlen0] at hj
    by_cases hjn : j < n
    · rw [if_pos ((hmem j).mpr hjn), if_pos hjn] at hj
      rw [hj, List.getElem?_map, List.getElem?_range hjn]
      rfl
    · rw [if_neg (fun hja => hjn ((hmem j).mp hja))] at hj
      rw [hj]
      have h1 : ((List.range n).map (fun _ => (none : Option String)))[j]? = none := by
        apply List.getElem?_eq_none
        simpa using Nat.le_of_not_lt hjn
      have h2 : ((List.range n).map resp)[j]? = none := by
        apply List.getElem?_eq_none
        simpa using Nat.le_of_not_lt hjn
      rw [h1, h2]
  have hcount : arrival.length = n := by
    rw [harr.length_eq, List.length_range]
  unfold get_player_outputs
  rw [hidx]
  rw [if_neg (by simp [← List.length_eq_zero, List.length_range]; omega)]
  rw [hrun]
  simp only [Nat.zero_add, hcount, List.length_range, if_neg (by omega : ¬ (n ≠ n))]
  have hflag : (handle_connection_queues cooldownVal gm).2 = false := by
    simp [handle_connection_queues, hdq, drainDisconnects]
  rw [if_neg (by simp [hflag])]
  rw [hfinal]
  have : (List.range n).zip ((List.range n).map resp) =
      (List.range n).map (fun i => (i, resp i)) := by
    have := List.zip_map' (fun i : Nat => i) resp (List.range n)
    simpa using this
  rw [this]

/-- Witness for `get_player_outputs_all_prompted`: two players, responses
arriving in reverse roster order. -/
theorem get_player_outputs_all_prompted_witness :
    get_player_outputs 10 ⟨[], [], 0, [], false⟩ 2 (fun _ => some "m")
        (fun i => some (if i = 0 then "a" else "b")) [1, 0] =
      .ok ((List.range 2).map
        (fun i => (i, some (if i = 0 then "a" else "b")))) :=
  get_player_outputs_all_prompted 10 ⟨[], [], 0, [], false⟩ 2 (fun _ => some "m")
    (fun i => some (if i = 0 then "a" else "b")) [1, 0]
    (by decide) (by decide) (by decide) rfl

/-- The completion loop hits `IndexError` as soon as some arriving roster
index is at or beyond the length of the `responses` list. -/
lemma fanoutLoop_index_error (resp : Nat → Option String) :
    ∀ (arrival : List Nat) (responses : List (Option String)) (responded : Nat),
      (∃ b ∈ arrival, responses.length ≤ b) →
      fanoutLoop resp arrival responses responded = .error .indexError := by
  intro arrival
  induction arrival with
  | nil => intro responses responded h; simp at h
  | cons i rest ih =>
    intro responses responded hb
    by_cases hi : responses.length ≤ i
    · simp [fanoutLoop, listSet_eq_none responses i (resp i) hi]
    · have hi' : i < responses.length := Nat.lt_of_not_le hi
      obtain ⟨b, hbm, hble⟩ := hb
      have hbr : b ∈ rest := by
        rcases List.mem_cons.mp hbm with hbe | hbr
        · omega
        · exact hbr
      simp only [fanoutLoop, listSet_eq_set responses i (resp i) hi']
      exact ih (responses.set i (resp i)) (responded + 1)
        ⟨b, hbr, by rwa [List.length_set]⟩

/-- C6: the `responses` list of `get_player_outputs` has one slot per
*prompted* player but is indexed by *roster* index, so whenever the prompted
subset is not a prefix of the roster — some prompted index is at least the
number of prompted players — the store is out of bounds and the call raises
`IndexError` (which `play_game` does not catch) instead of returning. -/
theorem get_player_outputs_index_error (cooldownVal : Nat) (gm : GMState)
    (n : Nat) (inputs : Nat → Option String) (resp : Nat → Option String)
    (arrival : List Nat)
    (harr : arrival.Perm (promptedIndices n inputs))
    (hbad : ∃ i ∈ promptedIndices n inputs,
      (promptedIndices n inputs).length ≤ i) :
    get_player_outputs cooldownVal gm n inputs resp arrival =
      .error .indexError := by
  obtain ⟨b, hbm, hble⟩ := hbad
  have hne : promptedIndices n inputs ≠ [] := by
    intro h; rw [h] at hbm; simp at hbm
  unfold get_player_outputs
  rw [if_neg hne]
  rw [fanoutLoop_index_error resp arrival _ 0
    ⟨b, harr.mem_iff.mpr hbm, by simpa using hble⟩]

/-- Witness for `get_player_outputs_index_error`: a 3-player roster in which
only players 0 and 2 are prompted (`responses` has length 2, player 2's
response lands out of bounds). -/
theorem get_player_outputs_index_error_witness :
    get_player_outputs 10 ⟨[], [], 0, [], false⟩ 3
        (fun i => if i = 1 then none else some "m") (fun _ => some "r")
        [0, 2] =
      .error .indexError :=
  get_player_outputs_index_error 10 ⟨[], [], 0, [], false⟩ 3
    (fun i => if i = 1 then none else some "m") (fun _ => some "r") [0, 2]
    (by decide) (by decide)

/-! ### C2 / C3 — the line transport -/

/-- No `"\r\n"` occurs in the list: the condition under which the transport's
CRLF check never fires.  (The streams written by `writeline` with well-formed
application lines satisfy it.) -/
def noCRLF : List Char → Bool
  | c1 :: c2 :: rest => if c1 = cr ∧ c2 = lf then false else noCRLF (c2 :: rest)
  | _ => true

lemma splitCRLF_sound : ∀ (s a b : List Char), splitCRLF s = some (a, b) →
    s = a ++ cr :: lf :: b := by
  intro s
  induction s with
  | nil => intro a b h; simp [splitCRLF] at h
  | cons c1 rest ih =>
    intro a b h
    cases rest with
    | nil => simp [splitCRLF] at h
    | cons c2 rest2 =>
      by_cases hcl : c1 = cr ∧ c2 = lf
      · simp only [splitCRLF, if_pos hcl] at h
        obtain ⟨ha, hb⟩ := Prod.mk.injEq .. ▸ Option.some.inj h
        subst ha; subst hb
        simp [hcl.1, hcl.2]
      · simp only [splitCRLF, if_neg hcl] at h
        rcases Option.map_eq_some'.mp h with ⟨p, hp, hfp⟩
        have := ih p.1 p.2 (by rw [hp])
        rcases p with ⟨p1, p2⟩
        obtain ⟨ha, hb⟩ := Prod.mk.injEq .. ▸ hfp
        subst ha; subst hb
        rw [this]
        simp

lemma noCRLF_append_crlf : ∀ (a b : List Char),
    noCRLF (a ++ cr :: lf :: b) = false := by
  intro a
  induction a with
  | nil => intro b; simp [noCRLF]
  | cons x a' ih =>
    intro b
    cases a' with
    | nil => simp [noCRLF]
    | cons y a'' =>
      have h := ih b
      simp only [List.cons_append] at h ⊢
      simp [noCRLF, h]

lemma splitCRLF_of_noCRLF (s : List Char) (h : noCRLF s = true) :
    splitCRLF s = none := by
  cases hc : splitCRLF s with
  | none => rfl
  | some p =>
    have := splitCRLF_sound s p.1 p.2 (by rw [hc])
    rw [this, noCRLF_append_crlf] at h
    exact absurd h (by simp)

lemma splitCRLF_lf_mem (s : List Char) (p : List Char × List Char)
    (h : splitCRLF s = some p) : lf ∈ s := by
  rw [splitCRLF_sound s p.1 p.2 (by rw [h])]
  simp

lemma splitLF_none (s : List Char) (h : lf ∉ s) : splitLF s = none := by
  induction s with
  | nil => rfl
  | cons c rest ih =>
    have hc : ¬ c = lf := fun he => h (by simp [he])
    simp only [splitLF, if_neg hc]
    rw [ih (fun hm => h (by simp [hm]))]
    rfl

lemma splitLF_found : ∀ (m e : List Char), lf ∉ m →
    splitLF (m ++ lf :: e) = some (m, e) := by
  intro m
  induction m with
  | nil => intro e _; simp [splitLF]
  | cons c m' ih =>
    intro e hm
    have hc : ¬ c = lf := fun he => hm (by simp [he])
    simp only [List.cons_append, splitLF, if_neg hc]
    rw [List.append_eq, ih e (fun hmem => hm (by simp [hmem]))]
    rfl

/-- With no `"\r\n"` anywhere, the delimiter scan of `readline` reduces to
the bare-`"\n"` split. -/
lemma findDelim_none (s : List Char) (h : lf ∉ s) : findDelim s = none := by
  unfold findDelim
  cases hc : splitCRLF s with
  | none => exact splitLF_none s h
  | some p => exact absurd (splitCRLF_lf_mem s p hc) h

lemma findDelim_found (m e : List Char) (hm : lf ∉ m)
    (hcr : noCRLF (m ++ lf :: e) = true) :
    findDelim (m ++ lf :: e) = some (m, e) := by
  unfold findDelim
  rw [splitCRLF_of_noCRLF _ hcr, splitLF_found m e hm]

lemma noCRLF_tail (c : Char) (s : List Char) (h : noCRLF (c :: s) = true) :
    noCRLF s = true := by
  cases s with
  | nil => rfl
  | cons c2 t =>
    simp only [noCRLF] at h
    split at h
    · exact absurd h (by simp)
    · exact h

lemma noCRLF_append_right : ∀ (x y : List Char),
    noCRLF (x ++ y) = true → noCRLF y = true := by
  intro x
  induction x with
  | nil => intro y h; exact h
  | cons c x' ih => intro y h; exact ih y (noCRLF_tail c _ (by simpa using h))

lemma noCRLF_append_left : ∀ (x y : List Char),
    noCRLF (x ++ y) = true → noCRLF x = true := by
  intro x
  induction x with
  | nil => intro y _; rfl
  | cons c x' ih =>
    intro y h
    cases x' with
    | nil => rfl
    | cons d x'' =>
      simp only [List.cons_append] at h
      simp only [noCRLF] at h ⊢
      split at h
      · exact absurd h (by simp)
      · next hcond =>
        rw [if_neg hcond]
        exact ih y (by simpa using h)

lemma noCRLF_lf_cons (rest : List Char) (h : noCRLF rest = true) :
    noCRLF (lf :: rest) = true := by
  cases rest with
  | nil => rfl
  | cons c t =>
    simp only [noCRLF]
    rw [if_neg (by intro hx; exact absurd hx.1 (by decide))]
    exact h

/-- Prepending one well-formed line (no `"\n"` inside, no trailing `"\r"`)
and its delimiter preserves CRLF-freeness. -/
lemma noCRLF_prepend_line : ∀ (m rest : List Char), lf ∉ m →
    m.getLast? ≠ some cr → noCRLF rest = true →
    noCRLF (m ++ lf :: rest) = true := by
  intro m
  induction m with
  | nil => intro rest _ _ h; exact noCRLF_lf_cons rest h
  | cons x m' ih =>
    intro rest hm hlast h
    cases m' with
    | nil =>
      have hx : ¬ x = cr := by
        intro he
        exact hlast (by simp [he])
      simp only [List.cons_append, List.nil_append, noCRLF]
      rw [if_neg (by intro hc; exact hx hc.1)]
      exact noCRLF_lf_cons rest h
    | cons y m'' =>
      have hy : ¬ (x = cr ∧ y = lf) := by
        intro hc
        exact hm (by simp [hc.2])
      have hlast' : (y :: m'').getLast? ≠ some cr := by
        rwa [List.getLast?_cons_cons] at hlast
      have := ih rest (fun hmm => hm (by simp [hmm])) hlast' h
      simp only [List.cons_append] at this ⊢
      simp only [noCRLF]
      rw [if_neg hy]
      exact this

/-- Splitting at the first `"\n"`: a delimited prefix of the remaining
stream decomposes along the stream's first line. -/
lemma eq_append_lf_split : ∀ (m msg z r : List Char),
    msg ++ z = m ++ lf :: r → lf ∉ m → lf ∈ msg →
    ∃ e, msg = m ++ lf :: e ∧ e ++ z = r := by
  intro m
  induction m with
  | nil =>
    intro msg z r heq _ hmem
    cases msg with
    | nil => simp at hmem
    | cons c msg' =>
      simp only [List.nil_append, List.cons_append, List.cons.injEq] at heq
      exact ⟨msg', by simp [heq.1], heq.2⟩
  | cons a m' ih =>
    intro msg z r heq hm hmem
    cases msg with
    | nil => simp at hmem
    | cons c msg' =>
      simp only [List.cons_append, List.cons.injEq] at heq
      have ha : ¬ a = lf := fun he => hm (by simp [he])
      have hmem' : lf ∈ msg' := by
        rcases List.mem_cons.mp hmem with he | hmem'
        · rw [heq.1] at he; exact absurd he.symm ha
        · exact hmem'
      obtain ⟨e, h1, h2⟩ := ih msg' z r heq.2
        (fun hmm => hm (by simp [hmm])) hmem'
      exact ⟨e, by simp [heq.1, h1], h2⟩

lemma drainBuffer_empty : ∀ (buffer : List (List Char)) (acc : List Char),
    lf ∉ acc ++ buffer.flatten →
    drainBuffer acc buffer = .empty (acc ++ buffer.flatten) := by
  intro buffer
  induction buffer with
  | nil => intro acc _; simp [drainBuffer]
  | cons b bs ih =>
    intro acc h
    have hassoc : acc ++ (b :: bs).flatten = (acc ++ b) ++ bs.flatten := by
      simp [List.flatten]
    rw [hassoc] at h ⊢
    have hnb : lf ∉ acc ++ b := fun hm => h (by simp [List.mem_append] at hm ⊢; tauto)
    simp only [drainBuffer, findDelim_none _ hnb]
    exact ih (acc ++ b) h

lemma drainBuffer_found : ∀ (buffer : List (List Char)) (acc m r : List Char),
    acc ++ buffer.flatten = m ++ lf :: r → lf ∉ m → lf ∉ acc →
    noCRLF (m ++ lf :: r) = true →
    (∀ b ∈ buffer, b ≠ []) →
    ∃ buf', drainBuffer acc buffer = .line m buf' ∧
      buf'.flatten = r ∧ (∀ b ∈ buf', b ≠ []) := by
  intro buffer
  induction buffer with
  | nil =>
    intro acc m r heq hm hacc hcr hbuf
    rw [List.flatten_nil, List.append_nil] at heq
    exact absurd (heq ▸ (by simp : lf ∈ m ++ lf :: r)) hacc
  | cons b bs ih =>
    intro acc m r heq hm hacc hcr hbuf
    have hassoc : acc ++ (b :: bs).flatten = (acc ++ b) ++ bs.flatten := by
      simp [List.flatten]
    rw [hassoc] at heq
    by_cases hmem : lf ∈ acc ++ b
    · obtain ⟨e, h1, h2⟩ := eq_append_lf_split m (acc ++ b) bs.flatten r heq hm hmem
      have hncr : noCRLF (m ++ lf :: e) = true := by
        apply noCRLF_append_left _ bs.flatten
        rw [← h1, heq]
        exact hcr
      refine ⟨(if e = [] then bs else e :: bs), ?_, ?_, ?_⟩
      · simp only [drainBuffer, h1, findDelim_found m e hm hncr]
      · by_cases he : e = []
        · rw [if_pos he]
          subst he
          simpa using h2
        · rw [if_neg he]
          simpa using h2
      · intro x hx
        by_cases he : e = []
        · rw [if_pos he] at hx
          exact hbuf x (by simp [hx])
        · rw [if_neg he] at hx
          rcases List.mem_cons.mp hx with hx | hx
          · rw [hx]; exact he
          · exact hbuf x (by simp [hx])
    · simp only [drainBuffer, findDelim_none _ hmem]
      exact ih (acc ++ b) m r heq hm hmem hcr (fun x hx => hbuf x (by simp [hx]))

lemma readLoop_found : ∀ (chunks : List (List Char)) (fuel : Nat)
    (data m r : List Char),
    data ++ chunks.flatten = m ++ lf :: r → lf ∉ m → lf ∉ data →
    noCRLF (m ++ lf :: r) = true → (∀ c ∈ chunks, c ≠ []) →
    chunks.length < fuel →
    ∃ buf' chunks', readLoop fuel data chunks = some (some m, buf', chunks') ∧
      buf'.flatten ++ chunks'.flatten = r ∧
      (∀ b ∈ buf', b ≠ []) ∧ (∀ c ∈ chunks', c ≠ []) := by
  intro chunks
  induction chunks with
  | nil =>
    intro fuel data m r heq _ hdata _ _ _
    rw [List.flatten_nil, List.append_nil] at heq
    exact absurd (heq ▸ (by simp : lf ∈ m ++ lf :: r)) hdata
  | cons ch rest ih =>
    intro fuel data m r heq hm hdata hcr hch hfuel
    cases fuel with
    | zero => simp at hfuel
    | succ f =>
      have hch0 : ch ≠ [] := hch ch (by simp)
      have hne : ¬ (data ++ ch = []) := by
        intro h
        exact hch0 (List.append_eq_nil.mp h).2
      have hassoc : data ++ (ch :: rest).flatten = (data ++ ch) ++ rest.flatten := by
        simp
      rw [hassoc] at heq
      by_cases hmem : lf ∈ data ++ ch
      · obtain ⟨e, h1, h2⟩ := eq_append_lf_split m (data ++ ch) rest.flatten r heq hm hmem
        have hncr : noCRLF (m ++ lf :: e) = true := by
          apply noCRLF_append_left _ rest.flatten
          rw [← h1, heq]
          exact hcr
        refine ⟨(if e = [] then [] else [e]), rest, ?_, ?_, ?_, ?_⟩
        · simp only [readLoop, List.headD_cons, List.tail_cons, h1,
            findDelim_found m e hm hncr]
          rw [if_neg (by simp)]
        · by_cases he : e = []
          · rw [if_pos he]; subst he; simpa using h2
          · rw [if_neg he]; simpa using h2
        · intro x hx
          by_cases he : e = []
          · rw [if_pos he] at hx; simp at hx
          · rw [if_neg he] at hx
            rw [List.mem_singleton.mp hx]
            exact he
        · exact fun c hc => hch c (by simp [hc])
      · have hstep : readLoop (f + 1) data (ch :: rest) =
            readLoop f (data ++ ch) rest := by
          simp only [readLoop, List.headD_cons, List.tail_cons, hne, if_false,
            findDelim_none _ hmem]
        rw [hstep]
        exact ih f (data ++ ch) m r heq hm hmem hcr
          (fun c hc => hch c (by simp [hc])) (by simpa using Nat.lt_of_succ_lt_succ hfuel)

/-- `readline` on a remaining stream whose first line is delimited: it
returns exactly that line from any chunking, leaving a state that carries the
rest of the stream. -/
lemma readline_spec (buffer chunks : List (List Char)) (m r : List Char)
    (heq : buffer.flatten ++ chunks.flatten = m ++ lf :: r)
    (hm : lf ∉ m)
    (hcr : noCRLF (m ++ lf :: r) = true)
    (hbuf : ∀ b ∈ buffer, b ≠ []) (hch : ∀ c ∈ chunks, c ≠ []) :
    ∃ buf' chunks',
      readline (chunks.length + 1) buffer chunks = some (some m, buf', chunks') ∧
      buf'.flatten ++ chunks'.flatten = r ∧
      (∀ b ∈ buf', b ≠ []) ∧ (∀ c ∈ chunks', c ≠ []) := by
  by_cases hmem : lf ∈ buffer.flatten
  · obtain ⟨e, h1, h2⟩ := eq_append_lf_split m buffer.flatten chunks.flatten r heq hm hmem
    have hncr : noCRLF (m ++ lf :: e) = true := by
      apply noCRLF_append_left _ chunks.flatten
      rw [← h1, heq]
      exact hcr
    obtain ⟨buf', hdrain, hflat, hne⟩ := drainBuffer_found buffer [] m e
      (by simpa using h1) hm (by simp) hncr hbuf
    refine ⟨buf', chunks, ?_, ?_, hne, hch⟩
    · simp only [readline, hdrain]
    · rw [hflat]; exact h2
  · have hdrain := drainBuffer_empty buffer [] hmem
    rw [List.nil_append] at hdrain
    have := readLoop_found chunks (chunks.length + 1) buffer.flatten m r heq hm hmem
      hcr hch (Nat.lt_succ_self _)
    obtain ⟨buf', chunks', hrun, hflat, hb, hc⟩ := this
    refine ⟨buf', chunks', ?_, hflat, hb, hc⟩
    simp only [readline, hdrain, hrun]

/-- A flattened-to-nothing list of non-empty lists is empty. -/
lemma eq_nil_of_flatten_nil (l : List (List Char)) (h : l.flatten = [])
    (hne : ∀ x ∈ l, x ≠ []) : l = [] := by
  cases l with
  | nil => rfl
  | cons x t =>
    rw [List.flatten_cons] at h
    exact absurd (List.append_eq_nil.mp h).1 (hne x (by simp))

lemma readAll_spec : ∀ (ms : List (List Char)) (buffer chunks : List (List Char))
    (fuel : Nat),
    (∀ m ∈ ms, lf ∉ m) →
    buffer.flatten ++ chunks.flatten = (ms.map (fun m => m ++ [lf])).flatten →
    noCRLF ((ms.map (fun m => m ++ [lf])).flatten) = true →
    (∀ b ∈ buffer, b ≠ []) → (∀ c ∈ chunks, c ≠ []) →
    ms.length < fuel →
    readAll fuel buffer chunks = some ms := by
  intro ms
  induction ms with
  | nil =>
    intro buffer chunks fuel _ heq _ hbuf hch hfuel
    simp only [List.map_nil, List.flatten_nil] at heq
    have hb : buffer = [] :=
      eq_nil_of_flatten_nil buffer (List.append_eq_nil.mp heq).1 hbuf
    have hc : chunks = [] :=
      eq_nil_of_flatten_nil chunks (List.append_eq_nil.mp heq).2 hch
    subst hb; subst hc
    cases fuel with
    | zero => simp at hfuel
    | succ f => rfl
  | cons m ms' ih =>
    intro buffer chunks fuel hms heq hcr hbuf hch hfuel
    have hSr : (((m :: ms').map (fun m => m ++ [lf])).flatten) =
        m ++ lf :: ((ms'.map (fun m => m ++ [lf])).flatten) := by
      simp
    rw [hSr] at heq hcr
    obtain ⟨buf', chunks', hread, hflat, hb, hc⟩ :=
      readline_spec buffer chunks m _ heq (hms m (by simp)) hcr hbuf hch
    cases fuel with
    | zero => simp at hfuel
    | succ f =>
      have : readAll (f + 1) buffer chunks =
          (readAll f buf' chunks').map (m :: ·) := by
        simp only [readAll, hread]
      rw [this]
      rw [ih buf' chunks' f (fun x hx => hms x (by simp [hx])) hflat
        (noCRLF_append_right (m ++ [lf]) _ (by simpa using hcr)) hb hc
        (by simpa using Nat.lt_of_succ_lt_succ hfuel)]
      rfl

lemma writeline_eq (m : List Char) (h : lf ∉ m) : writeline m = m ++ [lf] := by
  unfold writeline
  rw [if_neg]
  intro hl
  obtain ⟨hne, hx⟩ := List.mem_getLast?_eq_getLast (show lf ∈ m.getLast? from hl)
  exact h (hx ▸ List.getLast_mem hne)

/-- C2: for every sequence of application lines — lines with no embedded
`"\n"` and no trailing `"\r"` (a trailing `"\r"` would fuse with the appended
`"\n"` into the two-byte delimiter) — written back-to-back with `writeline`,
reading with `readline` over *any* chunking of the byte stream (including
chunks that split anywhere, since delimiters are only acted on once complete)
returns exactly the original lines in order, then signals end-of-stream. -/
theorem writeline_readline_roundtrip (ms chunks : List (List Char))
    (hms : ∀ m ∈ ms, lf ∉ m ∧ m.getLast? ≠ some cr)
    (hch : ∀ c ∈ chunks, c ≠ [])
    (hjoin : chunks.flatten = (ms.map writeline).flatten) :
    readAll (ms.length + 1) [] chunks = some ms := by
  have hmap : ms.map writeline = ms.map (fun m => m ++ [lf]) := by
    apply List.map_congr_left
    intro m hm
    exact writeline_eq m (hms m hm).1
  rw [hmap] at hjoin
  have hcr : noCRLF ((ms.map (fun m => m ++ [lf])).flatten) = true := by
    clear hjoin hch hmap
    induction ms with
    | nil => rfl
    | cons m ms' ih =>
      have hSr : (((m :: ms').map (fun m => m ++ [lf])).flatten) =
          m ++ lf :: ((ms'.map (fun m => m ++ [lf])).flatten) := by
        simp
      rw [hSr]
      exact noCRLF_prepend_line m _ (hms m (by simp)).1 (hms m (by simp)).2
        (ih (fun x hx => hms x (by simp [hx])))
  exact readAll_spec ms [] chunks (ms.length + 1) (fun m hm => (hms m hm).1)
    (by simpa using hjoin) hcr (by simp) hch (Nat.lt_succ_self _)

/-- Witness for `writeline_readline_roundtrip`: `["hi", "yo"]` written as
`"hi\nyo\n"` and delivered in chunks that split both lines. -/
theorem writeline_readline_roundtrip_witness :
    readAll (([['h', 'i'], ['y', 'o']] : List (List Char)).length + 1) []
        [['h'], ['i', '\n', 'y'], ['o', '\n']] =
      some [['h', 'i'], ['y', 'o']] :=
  writeline_readline_roundtrip [['h', 'i'], ['y', 'o']]
    [['h'], ['i', '\n', 'y'], ['o', '\n']] (by decide) (by decide) (by decide)

/-- Once the transport is exhausted (`read` keeps returning the empty chunk)
and the pending data holds no delimiter, the read loop of `readline` never
makes progress: every iteration re-appends the empty chunk and re-checks the
same data. -/
lemma readLoop_stuck : ∀ (fuel : Nat) (data : List Char), data ≠ [] →
    findDelim data = none → readLoop fuel data [] = none := by
  intro fuel
  induction fuel with
  | zero => intro data _ _; rfl
  | succ f ih =>
    intro data hne hfd
    simp only [readLoop, List.headD_nil, List.tail_nil, List.append_nil,
      if_neg hne, hfd]
    exact ih data hne hfd

/-- C3 evaluated at the failing input: with an empty buffer and a transport
that delivers `b"abc"` and then reaches clean end-of-stream, `readline`
returns for *no* amount of fuel — the `while data := data + await
reader.read(100)` loop spins on the empty EOF chunk forever instead of
returning the partial line once (that `return` is only reachable through the
`ConnectionResetError` handler).  An empty partial message, by contrast, does
signal end-of-stream as specified. -/
theorem readline_partial_eof_diverges :
    (∀ fuel : Nat, readline fuel [] [['a', 'b', 'c']] = none) ∧
    readline 1 [] [] = some (none, [], []) := by
  constructor
  · intro fuel
    have hfd : findDelim ['a', 'b', 'c'] = none := by decide
    cases fuel with
    | zero => rfl
    | succ f =>
      show readLoop (f + 1) [] [['a', 'b', 'c']] = none
      simp only [readLoop, List.headD_cons, List.tail_cons, List.nil_append,
        if_neg (by decide : ¬ (['a', 'b', 'c'] = [])), hfd]
      exact readLoop_stuck f ['a', 'b', 'c'] (by decide) hfd
  · rfl

end AsyncGame
